import Mathlib

/-!
Verification of the mytasks persistence layer (Go, `internal/store`).

The SQLite tables are modelled as in-memory lists of rows; stored DATE and
DATETIME columns are modelled as the text the driver writes (`Option String`
for nullable columns).  Each store operation is translated statement by
statement from `internal/store/sqlite.go` and `internal/store/migrations.go`:
an SQL `UPDATE ... WHERE` is a `List.map` guarded by the `WHERE` predicate,
a `SELECT ... WHERE id = ?` is a `List.find?`, and the Go loops over prepared
statements are folds.  Engine-level I/O failures are outside the model; the
data-dependent failure paths (date parsing, not-found, duplicate migration
versions, malformed migration filenames) are modelled exactly.
-/

namespace MyTasks

/-- A row of the `tasks` table.  `due_date`, `completed_at` hold the stored
date text; `created_at` / `updated_at` hold the stored timestamp text. -/
structure TaskRow where
  id : Int
  project_id : Int
  description : String
  notes : String
  priority : String
  due_date : Option String
  completed : Bool
  completed_at : Option String
  sort_order : Int
  created_at : String
  updated_at : String
deriving DecidableEq

/-- A row of the `projects` table. -/
structure ProjectRow where
  id : Int
  name : String
  description : String
  type : String
  target_date : Option String
  completed : Bool
  completed_at : Option String
  sort_order : Int
  created_at : String
  updated_at : String
deriving DecidableEq

/-- One step of `ReorderTasks` (sqlite.go:695-706): the prepared statement
`UPDATE tasks SET sort_order = ? WHERE id = ? AND project_id = ?` executed
with position `pos` and id `taskID`. -/
def reorderTaskRow (projectID : Int) (pos : Int) (taskID : Int) (r : TaskRow) : TaskRow :=
  if r.id = taskID ∧ r.project_id = projectID then { r with sort_order := pos } else r

/-- The per-row effect of running the whole update loop of `ReorderTasks`
over an indexed id list (`ps` pairs a 0-based index with an id, as Go's
`for i, id := range ids` does; the statement writes `i+1`). -/
def applyReorderUpdates (projectID : Int) (ps : List (Nat × Int)) (r : TaskRow) : TaskRow :=
  ps.foldl (fun r1 p => reorderTaskRow projectID (Int.ofNat p.fst + 1) p.snd r1) r

/-- ReorderTasks (sqlite.go:688-709): for `i, id` in `ids`, run
`UPDATE tasks SET sort_order = i+1 WHERE id = id AND project_id = projectID`,
all inside one transaction (the model is the committed result). -/
def ReorderTasks (projectID : Int) (ids : List Int) (db : List TaskRow) : List TaskRow :=
  ids.enum.foldl
    (fun acc p => acc.map (reorderTaskRow projectID (Int.ofNat p.fst + 1) p.snd)) db

/-- Position (1-based) of the last occurrence of `x` in `ids`, if any.
This is the spec-side notion used by claim C1 ("the position of its last
occurrence, last-write-wins"). -/
def lastPos : List Int → Int → Option Nat
  | [], _ => none
  | y :: ys, x =>
    match lastPos ys x with
    | some j => some (j + 1)
    | none => if y = x then some 1 else none

/-- Spec-side description of what reorder does to a single row, written from
the claim: a row owned by `projectID` whose id occurs in `ids` gets the
1-based position of the id's last occurrence as its new `sort_order`; every
other row is untouched. -/
def reorderTaskSpecRow (projectID : Int) (ids : List Int) (r : TaskRow) : TaskRow :=
  if r.project_id = projectID then
    match lastPos ids r.id with
    | some j => { r with sort_order := Int.ofNat j }
    | none => r
  else r

/-- Largest existing id plus one: stands in for SQLite's AUTOINCREMENT /
`LastInsertId` (the claims do not depend on the id assignment scheme). -/
def nextId (ids : List Int) : Int := ids.foldl max 0 + 1

/-- SQL `MAX(sort_order)` over a column: `none` on an empty row set. -/
def maxSortOrder : List Int → Option Int
  | [] => none
  | v :: vs =>
    match maxSortOrder vs with
    | none => some v
    | some m => some (max v m)

/-- The `sort_order` the insert statement computes (sqlite.go:84-94 and
331-341): Go first replaces a non-positive requested value by `-1`, then the
SQL `CASE WHEN ? > 0 THEN ? ELSE COALESCE(MAX(sort_order) + 1, 1) END`
keeps a positive requested value and otherwise appends after the maximum
sibling order, defaulting to 1 when there are no siblings. -/
def insertSortOrderValue (requested : Int) (siblings : List Int) : Int :=
  let sortOrder := if requested ≤ 0 then -1 else requested
  if sortOrder > 0 then sortOrder
  else
    match maxSortOrder siblings with
    | some m => m + 1
    | none => 1

/-- CreateTask (sqlite.go:312-357).  The siblings of a task are the tasks
with the same `project_id`.  Stored dates are already text in this model, so
Go's `Format("2006-01-02")` is the identity; `completed_at` defaults to the
current date when the task is created already completed without one. -/
def CreateTask (t : TaskRow) (nowD nowT : String) (db : List TaskRow) :
    List TaskRow × TaskRow :=
  let completedAt : Option String :=
    if t.completed then some (t.completed_at.getD nowD) else none
  let siblings := (db.filter fun r => r.project_id = t.project_id).map fun r => r.sort_order
  let newRow : TaskRow :=
    { t with
      id := nextId (db.map fun r => r.id)
      completed_at := completedAt
      sort_order := insertSortOrderValue t.sort_order siblings
      created_at := nowT
      updated_at := nowT }
  (db ++ [newRow], newRow)

/-- CreateProject (sqlite.go:74-110).  The siblings of a project are all
projects; the insert always stores `completed = false`, `completed_at = NULL`. -/
def CreateProject (p : ProjectRow) (nowT : String) (db : List ProjectRow) :
    List ProjectRow × ProjectRow :=
  let siblings := db.map fun r => r.sort_order
  let newRow : ProjectRow :=
    { p with
      id := nextId (db.map fun r => r.id)
      completed := false
      completed_at := none
      sort_order := insertSortOrderValue p.sort_order siblings
      created_at := nowT
      updated_at := nowT }
  (db ++ [newRow], newRow)

/-- MarkProjectComplete (sqlite.go:245-259): the single statement
`UPDATE projects SET completed = TRUE, completed_at = ?, updated_at = ? WHERE id = ?`
with the current date and timestamp.  Note there is no guard on the previous
completion state. -/
def MarkProjectComplete (id : Int) (nowD nowT : String) (db : List ProjectRow) :
    List ProjectRow :=
  db.map fun r =>
    if r.id = id then { r with completed := true, completed_at := some nowD, updated_at := nowT }
    else r

/-- ToggleTaskComplete (sqlite.go:668-685): the single statement
`UPDATE tasks SET completed = NOT completed, completed_at = CASE WHEN
completed = 0 THEN ? ELSE NULL END, updated_at = ? WHERE id = ?`.  Inside
the UPDATE every right-hand side reads the OLD row, so the CASE tests the
pre-toggle completion state. -/
def ToggleTaskComplete (id : Int) (nowD nowT : String) (db : List TaskRow) :
    List TaskRow :=
  db.map fun r =>
    if r.id = id then
      { r with
        completed := !r.completed
        completed_at := if r.completed = false then some nowD else none
        updated_at := nowT }
    else r

/-- The `completed_at` value UpdateTask stores (sqlite.go:631-645), given the
pre-read row state: a task that becomes completed gets the current date when
it was not completed before, otherwise the caller-supplied date if any,
otherwise the previously stored one; a task that is not completed gets NULL. -/
def updateTaskCompletedAt (wasCompleted : Bool) (existing : Option String)
    (t : TaskRow) (nowD : String) : Option String :=
  if t.completed then
    if wasCompleted = false then some nowD
    else
      match t.completed_at with
      | some d => some d
      | none => existing
  else none

/-- UpdateTask (sqlite.go:613-657): read the task's current completion state
by id (not-found error when no row matches), compute the stored
`completed_at`, then overwrite the row's mutable columns. -/
def UpdateTask (t : TaskRow) (nowD nowT : String) (db : List TaskRow) :
    Except String (List TaskRow) :=
  match db.find? (fun r => r.id == t.id) with
  | none => Except.error "task not found"
  | some row =>
    Except.ok (db.map fun r =>
      if r.id = t.id then
        { r with
          description := t.description
          notes := t.notes
          priority := t.priority
          due_date := t.due_date
          completed := t.completed
          completed_at := updateTaskCompletedAt row.completed row.completed_at t nowD
          sort_order := t.sort_order
          updated_at := nowT }
      else r)

/-- Spec-side `completed_at` rule, written in the claim's order: set to now
on a false-to-true transition, cleared when the updated task is not
completed, otherwise preserved from the stored row unless the caller
explicitly supplies one. -/
def claimCompletedAtSpec (wasCompleted : Bool) (storedCompletedAt : Option String)
    (t : TaskRow) (nowD : String) : Option String :=
  if wasCompleted = false ∧ t.completed = true then some nowD
  else if t.completed = false then none
  else
    match t.completed_at with
    | some d => some d
    | none => storedCompletedAt

/-- A migration definition (migrations.go:16-20). -/
structure Migration where
  version : Int
  name : String
  sql : String
deriving DecidableEq

/-- Schema-level facts `bootstrapLegacyMigrations` inspects: the
`schema_migrations` ledger rows `(version, name)`, `tableExists` for the two
core tables, and `columnExists` for the three inspected columns (a column
check on a missing table reports `false`, as `PRAGMA table_info` returns no
rows). -/
structure SchemaState where
  ledger : List (Int × String)
  hasProjects : Bool
  hasTasks : Bool
  tasksHasCompletedAt : Bool
  projectsHasCompleted : Bool
  projectsHasCompletedAt : Bool
deriving DecidableEq

/-- Baseline version inferred by bootstrapLegacyMigrations
(migrations.go:195-214): start at 1; a `tasks.completed_at` column raises it
to 2; `projects.completed` together with `projects.completed_at` raises it
to 3 (the later check overrides the earlier one). -/
def inferredBaselineVersion (s : SchemaState) : Int :=
  let baselineVersion : Int := 1
  let baselineVersion := if s.tasksHasCompletedAt then 2 else baselineVersion
  if s.projectsHasCompleted && s.projectsHasCompletedAt then 3 else baselineVersion

/-- bootstrapLegacyMigrations (migrations.go:173-236), returning the
resulting ledger: with a non-empty ledger, or when neither core table
exists, nothing happens; otherwise every migration of the (ascending) list
up to the inferred baseline is recorded in the ledger without its script
being run.  The Go loop `break`s at the first version above the baseline,
hence the `takeWhile`. -/
def bootstrapLegacyMigrations (s : SchemaState) (migrations : List Migration) :
    List (Int × String) :=
  if 0 < s.ledger.length then s.ledger
  else if !s.hasProjects && !s.hasTasks then s.ledger
  else
    s.ledger ++
      (migrations.takeWhile fun m => m.version ≤ inferredBaselineVersion s).map
        fun m => (m.version, m.name)

/-- A directory entry of the embedded `migrations/` FS (migrations.go:69-78):
a filename, the directory flag, and the file's content. -/
structure MigFile where
  name : String
  isDir : Bool
  sql : String
deriving DecidableEq

/-- Splits a character list at its last dot: `some (before, after)`. -/
def splitLastDot : List Char → Option (List Char × List Char)
  | [] => none
  | c :: cs =>
    match splitLastDot cs with
    | some (b, a) => some (c :: b, a)
    | none => if c = '.' then some ([], cs) else none

/-- Go's `filepath.Ext` for a plain filename: the suffix beginning at the
final dot, or the empty string when there is no dot. -/
def filepathExt (s : String) : String :=
  match splitLastDot s.toList with
  | some (_, a) => String.mk ('.' :: a)
  | none => ""

/-- Go's `strings.TrimSuffix(filename, filepath.Ext(filename))`
(migrations.go:118): the filename with its extension removed. -/
def trimSuffixExt (s : String) : String :=
  match splitLastDot s.toList with
  | some (b, _) => String.mk b
  | none => s

/-- Go's `strings.SplitN(base, "_", 2)` restricted to the two-part success
case: split at the first underscore; `none` when there is no underscore
(in which case Go's `len(parts) != 2` check fails the parse). -/
def splitFirstUnderscore : List Char → Option (List Char × List Char)
  | [] => none
  | c :: cs =>
    if c = '_' then some ([], cs)
    else
      match splitFirstUnderscore cs with
      | some (a, b) => some (c :: a, b)
      | none => none

/-- Digit run accumulator: `some` only when every character is a digit. -/
def parseDigits : List Char → Nat → Option Nat
  | [], acc => some acc
  | c :: cs, acc =>
    if c.isDigit then parseDigits cs (acc * 10 + (c.toNat - 48)) else none

/-- Go's `strconv.Atoi`: optional sign followed by at least one digit
(arbitrary precision here; the repository's version numbers are tiny). -/
def goAtoi (s : String) : Option Int :=
  match s.toList with
  | [] => none
  | '+' :: cs => if cs = [] then none else (parseDigits cs 0).map Int.ofNat
  | '-' :: cs => if cs = [] then none else (parseDigits cs 0).map fun n => -(Int.ofNat n)
  | cs => (parseDigits cs 0).map Int.ofNat

/-- parseMigrationFilename (migrations.go:117-130): strip the extension,
split at the first underscore into `<version>_<name>`, parse the version. -/
def parseMigrationFilename (filename : String) : Except String (Int × String) :=
  match splitFirstUnderscore (trimSuffixExt filename).toList with
  | none => Except.error "invalid migration filename"
  | some (p0, p1) =>
    match goAtoi (String.mk p0) with
    | none => Except.error "invalid migration version"
    | some version => Except.ok (version, String.mk p1)

/-- The per-entry effect of loadMigrations' loop on entries that do not abort
it: directories and non-`.sql` files are skipped, a parsed file yields a
migration. -/
def parseEntry (e : MigFile) : Option Migration :=
  if e.isDir then none
  else if filepathExt e.name ≠ ".sql" then none
  else
    match parseMigrationFilename e.name with
    | Except.error _ => none
    | Except.ok (version, name) => some ⟨version, name, e.sql⟩

/-- The collection loop of loadMigrations (migrations.go:78-108): `seen`
tracks versions for the duplicate check, `acc` the migrations collected so
far; a malformed filename or a duplicate version aborts with an error. -/
def loadMigrationsAux : List MigFile → List Int → List Migration →
    Except String (List Migration)
  | [], _, acc => Except.ok acc
  | e :: rest, seen, acc =>
    if e.isDir then loadMigrationsAux rest seen acc
    else if filepathExt e.name ≠ ".sql" then loadMigrationsAux rest seen acc
    else
      match parseMigrationFilename e.name with
      | Except.error msg => Except.error msg
      | Except.ok (version, name) =>
        if version ∈ seen then Except.error "duplicate migration version"
        else loadMigrationsAux rest (version :: seen) (acc ++ [⟨version, name, e.sql⟩])

/-- The comparison loadMigrations sorts by (migrations.go:110-112).  Go uses
`sort.Slice` with the strict `<`; on version-distinct input (guaranteed by
the duplicate check) every comparison sort produces the same list, so an
insertion sort by `≤` is a faithful model. -/
def migLE (a b : Migration) : Prop := a.version ≤ b.version

instance : DecidableRel migLE :=
  fun a b => inferInstanceAs (Decidable (a.version ≤ b.version))

instance : IsTotal Migration migLE :=
  ⟨fun a b => Int.le_total a.version b.version⟩

instance : IsTrans Migration migLE :=
  ⟨fun _ _ _ hab hbc => le_trans hab hbc⟩

/-- loadMigrations (migrations.go:69-115): collect, then sort ascending by
version. -/
def loadMigrations (entries : List MigFile) : Except String (List Migration) :=
  (loadMigrationsAux entries [] []).map fun ms => ms.insertionSort migLE

/-- The sequence of migrations runMigrations executes (migrations.go:41-49):
those whose version is not in the applied ledger, in list order. -/
def runMigrationsSequence (migrations : List Migration) (applied : List Int) :
    List Migration :=
  migrations.filter fun m => ¬ m.version ∈ applied

/-- Concrete migration list matching the repository's known migrations. -/
def sampleMigrations : List Migration :=
  [⟨1, "initial_schema", "CREATE TABLE sql 1"⟩,
   ⟨2, "completed_at", "ALTER sql 2"⟩,
   ⟨3, "project_completion", "ALTER sql 3"⟩]

/-- Concrete legacy schema state: empty ledger, core tables present,
`tasks.completed_at` present, project completion columns absent. -/
def sampleLegacyState : SchemaState :=
  ⟨[], true, true, true, false, false⟩

/-- Concrete migration directory listing, in one discovery order. -/
def sampleEntriesA : List MigFile :=
  [⟨"001_initial_schema.sql", false, "CREATE TABLE sql 1"⟩,
   ⟨"002_completed_at.sql", false, "ALTER sql 2"⟩,
   ⟨"README.md", false, "notes"⟩]

/-- The same directory listing discovered in another order. -/
def sampleEntriesB : List MigFile :=
  [⟨"README.md", false, "notes"⟩,
   ⟨"002_completed_at.sql", false, "ALTER sql 2"⟩,
   ⟨"001_initial_schema.sql", false, "CREATE TABLE sql 1"⟩]

/-- The sorted migrations both discovery orders load. -/
def sampleLoaded : List Migration :=
  [⟨1, "initial_schema", "CREATE TABLE sql 1"⟩,
   ⟨2, "completed_at", "ALTER sql 2"⟩]

/-- The in-memory date produced by a successful date parse (Go normalizes
every accepted encoding into a `time.Time`; the claims only concern its
calendar-date part, which the store writes back as `2006-01-02`). -/
structure DateParts where
  year : Nat
  month : Nat
  day : Nat
deriving DecidableEq

/-- Gregorian leap-year rule, as implemented by Go's `time` package. -/
def isLeapYear (y : Nat) : Bool :=
  (y % 4 == 0 && y % 100 != 0) || y % 400 == 0

/-- Day count of a month, used by Go's date validation during `time.Parse`. -/
def daysInMonth (y m : Nat) : Nat :=
  if m = 1 then 31
  else if m = 2 then (if isLeapYear y then 29 else 28)
  else if m = 3 then 31
  else if m = 4 then 30
  else if m = 5 then 31
  else if m = 6 then 30
  else if m = 7 then 31
  else if m = 8 then 31
  else if m = 9 then 30
  else if m = 10 then 31
  else if m = 11 then 30
  else if m = 12 then 31
  else 0

/-- Exactly `n` digits, accumulated into a number (zero padding required,
as Go's fixed-width layout fields demand). -/
def parseFixedDigits : Nat → Nat → List Char → Option (Nat × List Char)
  | 0, acc, cs => some (acc, cs)
  | _ + 1, _, [] => none
  | n + 1, acc, c :: cs =>
    if c.isDigit then parseFixedDigits n (acc * 10 + (c.toNat - 48)) cs else none

/-- One required literal character. -/
def expectChar (ch : Char) : List Char → Option (List Char)
  | [] => none
  | c :: cs => if c = ch then some cs else none

/-- The `2006-01-02` layout prefix: a 4-digit year, 2-digit month and 2-digit
day separated by dashes, with Go's range validation (month 1..12, day within
the month's length). -/
def parseDatePart (cs : List Char) : Option (DateParts × List Char) := do
  let (y, cs) ← parseFixedDigits 4 0 cs
  let cs ← expectChar '-' cs
  let (m, cs) ← parseFixedDigits 2 0 cs
  let cs ← expectChar '-' cs
  let (d, cs) ← parseFixedDigits 2 0 cs
  if 1 ≤ m ∧ m ≤ 12 ∧ 1 ≤ d ∧ d ≤ daysInMonth y m then pure (⟨y, m, d⟩, cs)
  else none

/-- The `15:04:05` layout: hour, minute, second with Go's range checks. -/
def parseTimePart (cs : List Char) : Option (List Char) := do
  let (hh, cs) ← parseFixedDigits 2 0 cs
  let cs ← expectChar ':' cs
  let (mm, cs) ← parseFixedDigits 2 0 cs
  let cs ← expectChar ':' cs
  let (ss, cs) ← parseFixedDigits 2 0 cs
  if hh ≤ 23 ∧ mm ≤ 59 ∧ ss ≤ 59 then pure cs else none

/-- Optional fractional seconds.  Go's `time.Parse` accepts a fractional
second right after the seconds field even when the layout does not contain
one, so every datetime layout gets this; a dot not followed by a digit is
not a fraction and makes the surrounding layout fail (no later layout
element consumes a dot). -/
def parseFracOpt (cs : List Char) : Option (List Char) :=
  match cs with
  | '.' :: rest =>
    if rest.takeWhile Char.isDigit = [] then none
    else some (rest.dropWhile Char.isDigit)
  | _ => some cs

/-- Digits of a `±hh:mm` numeric zone offset after its sign. -/
def parseOffsetDigits (cs : List Char) : Option (List Char) := do
  let (_, cs) ← parseFixedDigits 2 0 cs
  let cs ← expectChar ':' cs
  let (_, cs) ← parseFixedDigits 2 0 cs
  pure cs

/-- The `-07:00` layout element: a sign followed by `hh:mm`. -/
def parseNumOffset (cs : List Char) : Option (List Char) :=
  match cs with
  | '+' :: rest => parseOffsetDigits rest
  | '-' :: rest => parseOffsetDigits rest
  | _ => none

/-- The `Z07:00` layout element of RFC 3339: a literal `Z` or a numeric
offset. -/
def parseZOrOffset (cs : List Char) : Option (List Char) :=
  match cs with
  | 'Z' :: rest => some rest
  | _ => parseNumOffset cs

/-- The six layouts of `sqliteDateLayouts` (sqlite.go:21-28), in source
order: plain date, RFC 3339, and space- or T-separated datetimes with
optional fractional seconds and a required or absent numeric offset. -/
inductive DateLayout
  | dateOnly
  | rfc3339
  | dtSpace
  | dtSpaceOffset
  | dtSpaceFracOffset
  | dtTFracOffset
deriving DecidableEq

/-- Whether `cs` matches a layout in full (nothing may remain), returning
the date part.  Layouts 4 and 5 accept the same strings because the
fractional second is optional during parsing either way. -/
def matchLayout (layout : DateLayout) (cs : List Char) : Option DateParts :=
  match layout with
  | .dateOnly => do
    let (d, cs) ← parseDatePart cs
    if cs = [] then pure d else none
  | .rfc3339 => do
    let (d, cs) ← parseDatePart cs
    let cs ← expectChar 'T' cs
    let cs ← parseTimePart cs
    let cs ← parseFracOpt cs
    let cs ← parseZOrOffset cs
    if cs = [] then pure d else none
  | .dtSpace => do
    let (d, cs) ← parseDatePart cs
    let cs ← expectChar ' ' cs
    let cs ← parseTimePart cs
    let cs ← parseFracOpt cs
    if cs = [] then pure d else none
  | .dtSpaceOffset => do
    let (d, cs) ← parseDatePart cs
    let cs ← expectChar ' ' cs
    let cs ← parseTimePart cs
    let cs ← parseFracOpt cs
    let cs ← parseNumOffset cs
    if cs = [] then pure d else none
  | .dtSpaceFracOffset => do
    let (d, cs) ← parseDatePart cs
    let cs ← expectChar ' ' cs
    let cs ← parseTimePart cs
    let cs ← parseFracOpt cs
    let cs ← parseNumOffset cs
    if cs = [] then pure d else none
  | .dtTFracOffset => do
    let (d, cs) ← parseDatePart cs
    let cs ← expectChar 'T' cs
    let cs ← parseTimePart cs
    let cs ← parseFracOpt cs
    let cs ← parseNumOffset cs
    if cs = [] then pure d else none

/-- The layout list in the order `parseSQLiteDate` tries them. -/
def sqliteDateLayouts : List DateLayout :=
  [.dateOnly, .rfc3339, .dtSpace, .dtSpaceOffset, .dtSpaceFracOffset, .dtTFracOffset]

/-- Go's `strings.TrimSpace` on the stored text. -/
def trimSpace (s : String) : List Char :=
  ((s.toList.dropWhile Char.isWhitespace).reverse.dropWhile Char.isWhitespace).reverse

/-- First layout that matches wins (the Go loop returns on the first
successful `time.Parse`). -/
def firstMatch : List DateLayout → List Char → Option DateParts
  | [], _ => none
  | l :: ls, cs =>
    match matchLayout l cs with
    | some d => some d
    | none => firstMatch ls cs

/-- parseSQLiteDate (sqlite.go:30-43): trim, accept empty as "no date", try
every layout in order, and fail only when none parses. -/
def parseSQLiteDate (value : String) : Except String (Option DateParts) :=
  if trimSpace value = [] then Except.ok none
  else
    match firstMatch sqliteDateLayouts (trimSpace value) with
    | some d => Except.ok (some d)
    | none => Except.error "invalid date format"

/-- A nullable stored date column on its way into memory: SQL NULL is no
date; stored text goes through parseSQLiteDate. -/
def parseStoredDate (v : Option String) : Except String (Option DateParts) :=
  match v with
  | none => Except.ok none
  | some s => parseSQLiteDate s

/-- The two error conditions the store's get operations construct
(sqlite.go:133-137, 381-385): the dedicated not-found error built on
`sql.ErrNoRows`, versus the wrapped storage errors of every other failure
path. -/
inductive StoreError
  | notFound (msg : String)
  | storage (msg : String)
deriving DecidableEq

/-- The in-memory `models.Project` a successful GetProject returns. -/
structure Project where
  id : Int
  name : String
  description : String
  type : String
  target_date : Option DateParts
  completed : Bool
  completed_at : Option DateParts
  sort_order : Int
  created_at : String
  updated_at : String
deriving DecidableEq

/-- The in-memory `models.Task` a successful GetTask returns. -/
structure Task where
  id : Int
  project_id : Int
  description : String
  notes : String
  priority : String
  due_date : Option DateParts
  completed : Bool
  completed_at : Option DateParts
  sort_order : Int
  created_at : String
  updated_at : String
deriving DecidableEq

/-- GetProject (sqlite.go:112-157): a missing row yields the not-found
error; a matching row yields the project unless one of its stored date texts
fails to parse, which yields a storage error instead. -/
def GetProject (db : List ProjectRow) (id : Int) : Except StoreError Project :=
  match db.find? (fun r => r.id == id) with
  | none => Except.error (StoreError.notFound "project not found")
  | some r =>
    match parseStoredDate r.target_date with
    | Except.error _ => Except.error (StoreError.storage "failed to parse project target date")
    | Except.ok td =>
      match parseStoredDate r.completed_at with
      | Except.error _ =>
        Except.error (StoreError.storage "failed to parse project completed at")
      | Except.ok ca =>
        Except.ok ⟨r.id, r.name, r.description, r.type, td, r.completed, ca,
          r.sort_order, r.created_at, r.updated_at⟩

/-- GetTask (sqlite.go:359-405), analogous to GetProject. -/
def GetTask (db : List TaskRow) (id : Int) : Except StoreError Task :=
  match db.find? (fun r => r.id == id) with
  | none => Except.error (StoreError.notFound "task not found")
  | some r =>
    match parseStoredDate r.due_date with
    | Except.error _ => Except.error (StoreError.storage "failed to parse task due date")
    | Except.ok dd =>
      match parseStoredDate r.completed_at with
      | Except.error _ => Except.error (StoreError.storage "failed to parse task completed at")
      | Except.ok ca =>
        Except.ok ⟨r.id, r.project_id, r.description, r.notes, r.priority, dd, r.completed,
          ca, r.sort_order, r.created_at, r.updated_at⟩

/-- Concrete project row whose stored `target_date` text matches no layout. -/
def sampleProjectBadDate : ProjectRow :=
  ⟨9, "legacy", "", "project", some "not-a-date", false, none, 1, "t0", "t0"⟩

/-- Concrete task row owned by project 1, used by witnesses. -/
def sampleTaskOwned : TaskRow :=
  ⟨1, 1, "write report", "", "high", none, false, none, 1, "t0", "t0"⟩

/-- Concrete task row owned by project 2 whose id (2) can appear in a
reorder list scoped to project 1. -/
def sampleTaskForeign : TaskRow :=
  ⟨2, 2, "other project task", "", "low", none, false, none, 5, "t0", "t0"⟩

/-- Concrete already-completed project with a recorded completion date. -/
def sampleProjectDone : ProjectRow :=
  ⟨1, "p", "", "project", none, true, some "2025-01-01", 1, "t0", "t0"⟩

/-- Concrete already-completed task with a recorded completion date. -/
def sampleTaskDone : TaskRow :=
  ⟨3, 1, "ship release", "", "medium", none, true, some "2025-01-01", 2, "t0", "t0"⟩

end MyTasks

namespace MyTasks

theorem applyReorderUpdates_nil (projectID : Int) (r : TaskRow) :
    applyReorderUpdates projectID [] r = r := rfl

theorem applyReorderUpdates_append (projectID : Int) (ps qs : List (Nat × Int)) (r : TaskRow) :
    applyReorderUpdates projectID (ps ++ qs) r =
      applyReorderUpdates projectID qs (applyReorderUpdates projectID ps r) := by
  simp [applyReorderUpdates, List.foldl_append]

theorem reorderTaskRow_id (projectID pos taskID : Int) (r : TaskRow) :
    (reorderTaskRow projectID pos taskID r).id = r.id := by
  unfold reorderTaskRow; split <;> rfl

theorem reorderTaskRow_project_id (projectID pos taskID : Int) (r : TaskRow) :
    (reorderTaskRow projectID pos taskID r).project_id = r.project_id := by
  unfold reorderTaskRow; split <;> rfl

theorem reorderTasks_eq_map (projectID : Int) (ids : List Int) (db : List TaskRow) :
    ReorderTasks projectID ids db = db.map (applyReorderUpdates projectID ids.enum) := by
  unfold ReorderTasks applyReorderUpdates
  generalize ids.enum = ps
  induction ps generalizing db with
  | nil => simp
  | cons p ps ih =>
    simp only [List.foldl_cons, ih, List.map_map]
    rfl

theorem lastPos_append_self (l : List Int) (x : Int) :
    lastPos (l ++ [x]) x = some (l.length + 1) := by
  induction l with
  | nil => simp [lastPos]
  | cons y ys ih => simp [lastPos, ih]

theorem lastPos_append_ne (l : List Int) (x y : Int) (h : y ≠ x) :
    lastPos (l ++ [x]) y = lastPos l y := by
  induction l with
  | nil => simp [lastPos, Ne.symm h]
  | cons z zs ih =>
    simp only [List.cons_append, lastPos, List.append_eq]
    rw [ih]

theorem reorderTaskSpecRow_project_ne (projectID : Int) (ids : List Int) (r : TaskRow)
    (h : r.project_id ≠ projectID) : reorderTaskSpecRow projectID ids r = r := by
  simp [reorderTaskSpecRow, h]

theorem applyReorderUpdates_enum_eq_spec (projectID : Int) (ids : List Int) (r : TaskRow) :
    applyReorderUpdates projectID ids.enum r = reorderTaskSpecRow projectID ids r := by
  induction ids using List.reverseRecOn with
  | nil =>
    by_cases hp : r.project_id = projectID <;>
      simp [applyReorderUpdates, reorderTaskSpecRow, lastPos, hp]
  | append_singleton l x ih =>
    rw [List.enum_append, applyReorderUpdates_append, ih]
    by_cases hp : r.project_id = projectID
    · cases hlp : lastPos l r.id with
      | none =>
        simp only [reorderTaskSpecRow, hp, if_pos, hlp]
        by_cases hx : r.id = x
        · subst hx
          simp [applyReorderUpdates, reorderTaskRow, hp, lastPos_append_self,
            reorderTaskSpecRow]
        · simp [applyReorderUpdates, reorderTaskRow, hx, hp,
            reorderTaskSpecRow, lastPos_append_ne l x r.id hx, hlp]
      | some j =>
        simp only [reorderTaskSpecRow, hp, if_pos, hlp]
        by_cases hx : r.id = x
        · subst hx
          simp [applyReorderUpdates, reorderTaskRow, hp, lastPos_append_self,
            reorderTaskSpecRow]
        · simp [applyReorderUpdates, reorderTaskRow, hx, hp,
            reorderTaskSpecRow, lastPos_append_ne l x r.id hx, hlp]
    · rw [reorderTaskSpecRow_project_ne _ _ _ hp, reorderTaskSpecRow_project_ne _ _ _ hp]
      simp [applyReorderUpdates, reorderTaskRow, hp]

/-- C1: task reorder under project `p` rewrites each listed sibling's
`sort_order` to the 1-based position of the id's last occurrence in the list
(last-write-wins for duplicates); rows whose id is absent from the list, and
rows of other projects, keep their old `sort_order` (and all other fields).
No permutation validation happens and the operation is total: it never fails
because the list is not a permutation of the current siblings. -/
theorem c1_reorder_assigns_last_position (projectID : Int) (ids : List Int)
    (db : List TaskRow) :
    ReorderTasks projectID ids db = db.map (reorderTaskSpecRow projectID ids) := by
  rw [reorderTasks_eq_map]
  exact List.map_congr_left fun r _ => applyReorderUpdates_enum_eq_spec projectID ids r

theorem applyReorderUpdates_of_project_ne (projectID : Int) (ps : List (Nat × Int))
    (r : TaskRow) (h : r.project_id ≠ projectID) :
    applyReorderUpdates projectID ps r = r := by
  induction ps with
  | nil => rfl
  | cons p ps ih =>
    have hstep : reorderTaskRow projectID (Int.ofNat p.fst + 1) p.snd r = r := by
      simp [reorderTaskRow, h]
    simp only [applyReorderUpdates, List.foldl_cons, hstep]
    exact ih

/-- C10: a task reorder scoped to project `p` leaves every row of any other
project completely unchanged (every field), even when that row's id appears
in the supplied id list. -/
theorem c10_reorder_frame_other_projects (projectID : Int) (ids : List Int)
    (db : List TaskRow) (i : Nat) (r : TaskRow)
    (hget : db[i]? = some r) (hp : r.project_id ≠ projectID) :
    (ReorderTasks projectID ids db)[i]? = some r := by
  rw [reorderTasks_eq_map, List.getElem?_map, hget]
  simp [applyReorderUpdates_of_project_ne projectID ids.enum r hp]

/-- Witness for C10: reordering project 1 with the list `[2, 1]` — which
mentions the foreign task's id 2 — leaves the project-2 row intact. -/
theorem c10_reorder_frame_other_projects_witness :
    (ReorderTasks 1 [2, 1] [sampleTaskOwned, sampleTaskForeign])[1]? =
      some sampleTaskForeign :=
  c10_reorder_frame_other_projects 1 [2, 1] [sampleTaskOwned, sampleTaskForeign] 1
    sampleTaskForeign rfl (by decide)

theorem insertSortOrderValue_pos (requested : Int) (siblings : List Int)
    (h : 0 < requested) : insertSortOrderValue requested siblings = requested := by
  have h1 : ¬ requested ≤ 0 := by omega
  simp [insertSortOrderValue, h1, h]

theorem insertSortOrderValue_nonpos (requested : Int) (siblings : List Int)
    (h : requested ≤ 0) :
    insertSortOrderValue requested siblings =
      (match maxSortOrder siblings with
       | some m => m + 1
       | none => 1) := by
  simp [insertSortOrderValue, h]

theorem maxSortOrder_eq_none_iff (l : List Int) : maxSortOrder l = none ↔ l = [] := by
  cases l with
  | nil => simp [maxSortOrder]
  | cons v vs =>
    simp only [maxSortOrder]
    cases maxSortOrder vs <;> simp

theorem maxSortOrder_mem (l : List Int) (m : Int) (h : maxSortOrder l = some m) :
    m ∈ l := by
  induction l generalizing m with
  | nil => simp [maxSortOrder] at h
  | cons v vs ih =>
    simp only [maxSortOrder] at h
    cases hvs : maxSortOrder vs with
    | none => rw [hvs] at h; simp at h; simp [h]
    | some m2 =>
      rw [hvs] at h
      simp only [Option.some.injEq] at h
      rcases max_choice v m2 with hc | hc
      · rw [hc] at h; simp [h]
      · rw [hc] at h; subst h; exact List.mem_cons_of_mem v (ih m2 hvs)

theorem maxSortOrder_is_ub (l : List Int) (m : Int) (h : maxSortOrder l = some m) :
    ∀ x ∈ l, x ≤ m := by
  induction l generalizing m with
  | nil => simp
  | cons v vs ih =>
    simp only [maxSortOrder] at h
    cases hvs : maxSortOrder vs with
    | none =>
      rw [hvs] at h; simp only [Option.some.injEq] at h
      have : vs = [] := (maxSortOrder_eq_none_iff vs).mp hvs
      subst this; simp [h]
    | some m2 =>
      rw [hvs] at h
      simp only [Option.some.injEq] at h
      intro x hx
      rcases List.mem_cons.mp hx with hx | hx
      · subst hx; rw [← h]; exact le_max_left x m2
      · calc x ≤ m2 := ih m2 hvs x hx
          _ ≤ m := by rw [← h]; exact le_max_right v m2

/-- C2: when the caller supplies no positive `sort_order`, the created row's
`sort_order` is the maximum existing sibling `sort_order` plus one, or 1 when
there are no siblings — siblings being the tasks with the same `project_id`
for a task, and all projects for a project; a positive requested value is
used unchanged. -/
theorem c2_create_default_sort_order (t : TaskRow) (p : ProjectRow)
    (nowD nowT : String) (tdb : List TaskRow) (pdb : List ProjectRow) :
    (0 < t.sort_order → (CreateTask t nowD nowT tdb).2.sort_order = t.sort_order) ∧
    (t.sort_order ≤ 0 →
      ((((tdb.filter fun r => r.project_id = t.project_id).map fun r => r.sort_order) = [] ∧
          (CreateTask t nowD nowT tdb).2.sort_order = 1) ∨
        (∃ m, m ∈ ((tdb.filter fun r => r.project_id = t.project_id).map fun r => r.sort_order) ∧
          (∀ x ∈ ((tdb.filter fun r => r.project_id = t.project_id).map fun r => r.sort_order),
            x ≤ m) ∧
          (CreateTask t nowD nowT tdb).2.sort_order = m + 1))) ∧
    (0 < p.sort_order → (CreateProject p nowT pdb).2.sort_order = p.sort_order) ∧
    (p.sort_order ≤ 0 →
      (((pdb.map fun r => r.sort_order) = [] ∧ (CreateProject p nowT pdb).2.sort_order = 1) ∨
        (∃ m, m ∈ (pdb.map fun r => r.sort_order) ∧
          (∀ x ∈ (pdb.map fun r => r.sort_order), x ≤ m) ∧
          (CreateProject p nowT pdb).2.sort_order = m + 1))) := by
  have htask : (CreateTask t nowD nowT tdb).2.sort_order =
      insertSortOrderValue t.sort_order
        ((tdb.filter fun r => r.project_id = t.project_id).map fun r => r.sort_order) := rfl
  have hproj : (CreateProject p nowT pdb).2.sort_order =
      insertSortOrderValue p.sort_order (pdb.map fun r => r.sort_order) := rfl
  refine ⟨fun h => ?_, fun h => ?_, fun h => ?_, fun h => ?_⟩
  · rw [htask, insertSortOrderValue_pos _ _ h]
  · rw [htask, insertSortOrderValue_nonpos _ _ h]
    cases hmax : maxSortOrder ((tdb.filter fun r => r.project_id = t.project_id).map
        fun r => r.sort_order) with
    | none => exact Or.inl ⟨(maxSortOrder_eq_none_iff _).mp hmax, rfl⟩
    | some m =>
      exact Or.inr ⟨m, maxSortOrder_mem _ m hmax, maxSortOrder_is_ub _ m hmax, rfl⟩
  · rw [hproj, insertSortOrderValue_pos _ _ h]
  · rw [hproj, insertSortOrderValue_nonpos _ _ h]
    cases hmax : maxSortOrder (pdb.map fun r => r.sort_order) with
    | none => exact Or.inl ⟨(maxSortOrder_eq_none_iff _).mp hmax, rfl⟩
    | some m =>
      exact Or.inr ⟨m, maxSortOrder_mem _ m hmax, maxSortOrder_is_ub _ m hmax, rfl⟩

/-- Witness for C2: a task created with requested `sort_order = 5` keeps 5,
and a project created with `sort_order = 0` into an empty table gets 1. -/
theorem c2_create_default_sort_order_witness :
    (CreateTask { sampleTaskOwned with sort_order := 5 } "d" "t" []).2.sort_order = 5 ∧
      (CreateProject { sampleProjectDone with sort_order := 0 } "t" []).2.sort_order = 1 := by
  have h := c2_create_default_sort_order { sampleTaskOwned with sort_order := 5 }
    { sampleProjectDone with sort_order := 0 } "d" "t" [] []
  rcases h with ⟨h1, _, _, h4⟩
  refine ⟨h1 (by decide), ?_⟩
  rcases h4 (by decide) with ⟨_, heq⟩ | ⟨m, hm, _, _⟩
  · exact heq
  · exact absurd hm (by simp)

/-- Counterexample for C6: `sampleProjectDone` is already completed with
`completed_at = 2025-01-01`, yet mark-complete overwrites `completed_at`
with the current date instead of leaving it unchanged. -/
theorem c6_counterexample :
    sampleProjectDone.completed = true ∧
      sampleProjectDone.completed_at = some "2025-01-01" ∧
      (MarkProjectComplete 1 "2025-06-01" "ts1" [sampleProjectDone]).map
          (fun r => r.completed_at) = [some "2025-06-01"] ∧
      some "2025-06-01" ≠ sampleProjectDone.completed_at :=
  ⟨rfl, rfl, by decide, by decide⟩

/-- C6 (amended): mark-complete sets `completed = true` and unconditionally
sets `completed_at` to the current date for the targeted project — including
a project that was already completed, whose previously recorded
`completed_at` is therefore overwritten with the current date; all other
rows are untouched. -/
theorem c6_mark_complete_overwrites (id : Int) (nowD nowT : String)
    (db : List ProjectRow) (i : Nat) (r : ProjectRow) (hget : db[i]? = some r) :
    (MarkProjectComplete id nowD nowT db)[i]? =
      some (if r.id = id then
        { r with completed := true, completed_at := some nowD, updated_at := nowT }
      else r) := by
  simp [MarkProjectComplete, List.getElem?_map, hget]

/-- Witness for C6's amended theorem at the already-completed project. -/
theorem c6_mark_complete_overwrites_witness :
    (MarkProjectComplete 1 "2025-06-01" "ts1" [sampleProjectDone])[0]? =
      some ({ sampleProjectDone with
        completed := true
        completed_at := some "2025-06-01"
        updated_at := "ts1" }) := by
  have h := c6_mark_complete_overwrites 1 "2025-06-01" "ts1" [sampleProjectDone] 0
    sampleProjectDone rfl
  simpa using h

/-- Counterexample for C9: toggling `sampleTaskDone` (initially completed
with `completed_at = 2025-01-01`) twice restores `completed = true` but
leaves `completed_at` equal to the date of the second toggle, not null, so
"returns ... with completed_at null again" fails for initially-completed
tasks. -/
theorem c9_counterexample :
    sampleTaskDone.completed = true ∧
      ((ToggleTaskComplete 3 "2025-06-02" "ts2"
          (ToggleTaskComplete 3 "2025-06-01" "ts1" [sampleTaskDone])).map
        fun r => (r.completed, r.completed_at)) = [(true, some "2025-06-02")] ∧
      (some "2025-06-02" : Option String) ≠ none :=
  ⟨rfl, by decide, by decide⟩

/-- C9 (amended): toggling twice always restores the original completed
state; after the double toggle `completed_at` is null exactly when the task
was originally incomplete (an originally completed task ends with
`completed_at` equal to the second toggle's date).  A single toggle from
incomplete sets `completed = true` and `completed_at` to the current date;
a single toggle from complete sets `completed = false` and clears
`completed_at`. -/
theorem c9_toggle_twice (id : Int) (d1 t1 d2 t2 : String) (db : List TaskRow) :
    (ToggleTaskComplete id d2 t2 (ToggleTaskComplete id d1 t1 db) =
      db.map fun r =>
        if r.id = id then
          { r with
            completed_at := if r.completed then some d2 else none
            updated_at := t2 }
        else r) ∧
    (∀ (i : Nat) (r : TaskRow), db[i]? = some r → r.id = id →
      (r.completed = false →
        (ToggleTaskComplete id d1 t1 db)[i]? =
          some { r with completed := true, completed_at := some d1, updated_at := t1 }) ∧
      (r.completed = true →
        (ToggleTaskComplete id d1 t1 db)[i]? =
          some { r with completed := false, completed_at := none, updated_at := t1 })) := by
  constructor
  · unfold ToggleTaskComplete
    rw [List.map_map]
    refine List.map_congr_left fun r _ => ?_
    obtain ⟨rid, rpid, rdesc, rnotes, rprio, rdue, rc, rca, rso, rcr, rup⟩ := r
    by_cases h : rid = id
    · cases rc <;> simp [Function.comp, h]
    · simp [Function.comp, h]
  · intro i r hget hid
    have hmap : (ToggleTaskComplete id d1 t1 db)[i]? =
        some (if r.id = id then
          { r with
            completed := !r.completed
            completed_at := if r.completed = false then some d1 else none
            updated_at := t1 }
        else r) := by
      simp [ToggleTaskComplete, List.getElem?_map, hget]
    constructor <;> intro hc <;> rw [hmap] <;> simp [hid, hc]

/-- Witness for C9's amended theorem: a single toggle of the incomplete
`sampleTaskOwned` marks it completed with the toggle date. -/
theorem c9_toggle_twice_witness :
    (ToggleTaskComplete 1 "2025-06-01" "ts1" [sampleTaskOwned])[0]? =
      some { sampleTaskOwned with
        completed := true
        completed_at := some "2025-06-01"
        updated_at := "ts1" } :=
  ((c9_toggle_twice 1 "2025-06-01" "ts1" "d2" "t2" [sampleTaskOwned]).2 0
    sampleTaskOwned rfl rfl).1 rfl

theorem updateTaskCompletedAt_eq_claim (w : Bool) (ex : Option String)
    (t : TaskRow) (nowD : String) :
    updateTaskCompletedAt w ex t nowD = claimCompletedAtSpec w ex t nowD := by
  cases htc : t.completed <;> cases w <;>
    simp [updateTaskCompletedAt, claimCompletedAtSpec, htc]

/-- C5: updating an existing task stores `completed_at` according to the
claim's rules — current date on a false-to-true completion transition,
null when the updated task is not completed, and otherwise the previously
stored value (or the caller's explicit one); in particular an update that
keeps the task completed never silently loses `completed_at`. -/
theorem c5_update_completed_at (t : TaskRow) (nowD nowT : String)
    (db : List TaskRow) (row : TaskRow)
    (hfind : db.find? (fun r => r.id == t.id) = some row) :
    UpdateTask t nowD nowT db = Except.ok (db.map fun r =>
      if r.id = t.id then
        { r with
          description := t.description
          notes := t.notes
          priority := t.priority
          due_date := t.due_date
          completed := t.completed
          completed_at := claimCompletedAtSpec row.completed row.completed_at t nowD
          sort_order := t.sort_order
          updated_at := nowT }
      else r) := by
  unfold UpdateTask
  rw [hfind]
  simp only [updateTaskCompletedAt_eq_claim]

/-- Witness for C5: updating the completed `sampleTaskDone` while keeping it
completed and supplying no explicit date preserves the stored
`completed_at = 2025-01-01`. -/
theorem c5_update_completed_at_witness :
    UpdateTask { sampleTaskDone with description := "new text", completed_at := none }
        "2025-06-01" "ts9" [sampleTaskDone] =
      Except.ok [{ sampleTaskDone with description := "new text", updated_at := "ts9" }] := by
  have h := c5_update_completed_at
    { sampleTaskDone with description := "new text", completed_at := none }
    "2025-06-01" "ts9" [sampleTaskDone] sampleTaskDone rfl
  rw [h]
  rfl

theorem inferredBaselineVersion_eq (s : SchemaState) :
    inferredBaselineVersion s =
      (if s.projectsHasCompleted = true ∧ s.projectsHasCompletedAt = true then 3
       else if s.tasksHasCompletedAt = true then 2 else 1) := by
  cases hp : s.projectsHasCompleted <;> cases hpa : s.projectsHasCompletedAt <;>
    cases ht : s.tasksHasCompletedAt <;>
    simp [inferredBaselineVersion, hp, hpa, ht]

theorem takeWhile_le_eq_filter (b : Int) (ms : List Migration)
    (hsorted : ms.Pairwise fun a c => a.version ≤ c.version) :
    (ms.takeWhile fun m => m.version ≤ b) = ms.filter fun m => m.version ≤ b := by
  induction ms with
  | nil => rfl
  | cons m ms ih =>
    rcases List.pairwise_cons.mp hsorted with ⟨hhead, htail⟩
    by_cases hm : m.version ≤ b
    · simp [List.takeWhile_cons, List.filter_cons, hm, ih htail]
    · have hnil : (ms.filter fun m => m.version ≤ b) = [] := by
        rw [List.filter_eq_nil_iff]
        intro a ha
        simp only [decide_eq_true_eq]
        exact fun hab => hm (le_trans (hhead a ha) hab)
      simp [List.takeWhile_cons, List.filter_cons, hm, hnil]

/-- C3: with an empty ledger and at least one core table present, legacy
bootstrap records (without running) exactly the migrations whose version is
at most the inferred baseline — 3 when the projects table has both
`completed` and `completed_at`, else 2 when the tasks table has
`completed_at`, else 1 — assuming the migration list is ascending by
version, as `loadMigrations` guarantees; with a non-empty ledger, or with
neither core table present, the ledger is left untouched. -/
theorem c3_legacy_bootstrap (s : SchemaState) (migrations : List Migration)
    (hsorted : migrations.Pairwise fun a c => a.version ≤ c.version) :
    (s.ledger = [] → (s.hasProjects = true ∨ s.hasTasks = true) →
      bootstrapLegacyMigrations s migrations =
        (migrations.filter fun m =>
          m.version ≤
            (if s.projectsHasCompleted = true ∧ s.projectsHasCompletedAt = true then 3
             else if s.tasksHasCompletedAt = true then 2 else 1)).map
          fun m => (m.version, m.name)) ∧
    ((s.ledger ≠ [] ∨ (s.hasProjects = false ∧ s.hasTasks = false)) →
      bootstrapLegacyMigrations s migrations = s.ledger) := by
  constructor
  · intro hledger hcore
    have hcoreb : (!s.hasProjects && !s.hasTasks) = false := by
      rcases hcore with h | h <;> simp [h]
    rw [bootstrapLegacyMigrations]
    rw [if_neg (by simp [hledger]), if_neg (by simp [hcoreb]), hledger]
    rw [takeWhile_le_eq_filter _ _ hsorted, inferredBaselineVersion_eq]
    simp
  · intro hcase
    rcases hcase with h | ⟨hp, ht⟩
    · have : 0 < s.ledger.length := List.length_pos.mpr h
      rw [bootstrapLegacyMigrations, if_pos this]
    · by_cases hlen : 0 < s.ledger.length
      · rw [bootstrapLegacyMigrations, if_pos hlen]
      · rw [bootstrapLegacyMigrations, if_neg hlen, if_pos (by simp [hp, ht])]

/-- Witness for C3: the sample legacy database (empty ledger, core tables
present, `tasks.completed_at` present, no project completion columns) gets
exactly migrations 1 and 2 recorded. -/
theorem c3_legacy_bootstrap_witness :
    bootstrapLegacyMigrations sampleLegacyState sampleMigrations =
      [(1, "initial_schema"), (2, "completed_at")] := by
  have h := (c3_legacy_bootstrap sampleLegacyState sampleMigrations (by decide)).1 rfl
    (Or.inl rfl)
  rw [h]
  rfl

theorem loadMigrationsAux_ok (entries : List MigFile) :
    ∀ (seen : List Int) (acc l : List Migration),
      loadMigrationsAux entries seen acc = Except.ok l →
      l = acc ++ entries.filterMap parseEntry := by
  induction entries with
  | nil =>
    intro seen acc l h
    simp only [loadMigrationsAux, Except.ok.injEq] at h
    simp [h]
  | cons e rest ih =>
    intro seen acc l h
    by_cases hdir : e.isDir
    · rw [loadMigrationsAux, if_pos hdir] at h
      have := ih seen acc l h
      simp [this, List.filterMap_cons, parseEntry, hdir]
    · by_cases hext : filepathExt e.name ≠ ".sql"
      · rw [loadMigrationsAux, if_neg hdir, if_pos hext] at h
        have := ih seen acc l h
        simp [this, List.filterMap_cons, parseEntry, hdir, hext]
      · rw [loadMigrationsAux, if_neg hdir, if_neg hext] at h
        cases hp : parseMigrationFilename e.name with
        | error msg => simp [hp] at h
        | ok vn =>
          obtain ⟨version, name⟩ := vn
          simp only [hp] at h
          by_cases hseen : version ∈ seen
          · rw [if_pos hseen] at h; exact absurd h (by simp)
          · rw [if_neg hseen] at h
            have := ih _ _ _ h
            simp only [this, List.filterMap_cons]
            have hpe : parseEntry e = some ⟨version, name, e.sql⟩ := by
              simp [parseEntry, hdir, hext, hp]
            rw [hpe]
            simp

theorem loadMigrationsAux_versions_nodup (entries : List MigFile) :
    ∀ (seen : List Int) (acc l : List Migration),
      (∀ a ∈ acc, a.version ∈ seen) →
      (acc.map fun m => m.version).Nodup →
      loadMigrationsAux entries seen acc = Except.ok l →
      (l.map fun m => m.version).Nodup := by
  induction entries with
  | nil =>
    intro seen acc l hinv hnd h
    simp only [loadMigrationsAux, Except.ok.injEq] at h
    rw [← h]; exact hnd
  | cons e rest ih =>
    intro seen acc l hinv hnd h
    by_cases hdir : e.isDir
    · rw [loadMigrationsAux, if_pos hdir] at h
      exact ih seen acc l hinv hnd h
    · by_cases hext : filepathExt e.name ≠ ".sql"
      · rw [loadMigrationsAux, if_neg hdir, if_pos hext] at h
        exact ih seen acc l hinv hnd h
      · rw [loadMigrationsAux, if_neg hdir, if_neg hext] at h
        cases hp : parseMigrationFilename e.name with
        | error msg => simp [hp] at h
        | ok vn =>
          obtain ⟨version, name⟩ := vn
          simp only [hp] at h
          by_cases hseen : version ∈ seen
          · rw [if_pos hseen] at h; exact absurd h (by simp)
          · rw [if_neg hseen] at h
            refine ih _ _ _ ?_ ?_ h
            · intro a ha
              rcases List.mem_append.mp ha with ha | ha
              · exact List.mem_cons_of_mem _ (hinv a ha)
              · simp only [List.mem_singleton] at ha
                subst ha
                exact List.mem_cons_self _ _
            · rw [List.map_append, List.nodup_append]
              refine ⟨hnd, by simp, ?_⟩
              intro v hv
              simp only [List.map_cons, List.map_nil, List.mem_singleton]
              intro hv2
              rw [List.mem_map] at hv
              obtain ⟨a, ha, hav⟩ := hv
              rw [hv2] at hav
              exact hseen (hav ▸ hinv a ha)

theorem loadMigrations_ok_shape (entries : List MigFile) (ms : List Migration)
    (h : loadMigrations entries = Except.ok ms) :
    ms = (entries.filterMap parseEntry).insertionSort migLE ∧
      ((entries.filterMap parseEntry).map fun m => m.version).Nodup := by
  unfold loadMigrations at h
  cases haux : loadMigrationsAux entries [] [] with
  | error msg => rw [haux] at h; exact absurd h (by simp [Except.map])
  | ok l =>
    rw [haux] at h
    simp only [Except.map, Except.ok.injEq] at h
    have hl : l = entries.filterMap parseEntry := by
      simpa using loadMigrationsAux_ok entries [] [] l haux
    have hnd : (l.map fun m => m.version).Nodup :=
      loadMigrationsAux_versions_nodup entries [] [] l (by simp) (by simp) haux
    rw [hl] at hnd
    exact ⟨by rw [← h, hl], hnd⟩

theorem sorted_versions_nodup_eq (l₁ l₂ : List Migration)
    (hperm : l₁.Perm l₂)
    (hs₁ : l₁.Pairwise fun a b => a.version < b.version)
    (hs₂ : l₂.Pairwise fun a b => a.version < b.version) :
    l₁ = l₂ := by
  haveI : IsAntisymm Migration (fun a b => a.version < b.version) :=
    ⟨fun a b h1 h2 => absurd (lt_trans h1 h2) (lt_irrefl _)⟩
  exact List.eq_of_perm_of_sorted hperm hs₁ hs₂

theorem insertionSort_strict_of_nodup (l : List Migration)
    (hnd : (l.map fun m => m.version).Nodup) :
    (l.insertionSort migLE).Pairwise fun a b => a.version < b.version := by
  have hsorted : (l.insertionSort migLE).Pairwise migLE :=
    List.sorted_insertionSort migLE l
  have hnd2 : ((l.insertionSort migLE).map fun m => m.version).Nodup := by
    have hperm : (l.insertionSort migLE).Perm l := List.perm_insertionSort migLE l
    exact ((hperm.map fun m => m.version).nodup_iff).mpr hnd
  have hne : (l.insertionSort migLE).Pairwise fun a b => a.version ≠ b.version :=
    List.pairwise_map.mp hnd2
  exact (hsorted.and hne).imp fun h => lt_of_le_of_ne h.1 h.2

/-- C4: for any two discovery orders of the same migration files that both
load successfully, the loaded lists are identical, so the sequence of
pending migrations (those whose version is not in the applied ledger) that
runMigrations executes is identical, and its versions are strictly
ascending: the applied sequence never depends on discovery order. -/
theorem c4_migration_order_independent (entries1 entries2 : List MigFile)
    (applied : List Int) (ms1 ms2 : List Migration)
    (hperm : entries1.Perm entries2)
    (h1 : loadMigrations entries1 = Except.ok ms1)
    (h2 : loadMigrations entries2 = Except.ok ms2) :
    ms1 = ms2 ∧
      runMigrationsSequence ms1 applied = runMigrationsSequence ms2 applied ∧
      ((runMigrationsSequence ms1 applied).map fun m => m.version).Pairwise (· < ·) := by
  obtain ⟨hshape1, hnd1⟩ := loadMigrations_ok_shape entries1 ms1 h1
  obtain ⟨hshape2, hnd2⟩ := loadMigrations_ok_shape entries2 ms2 h2
  have hfmperm : (entries1.filterMap parseEntry).Perm (entries2.filterMap parseEntry) :=
    hperm.filterMap parseEntry
  have hstrict1 : ms1.Pairwise fun a b => a.version < b.version := by
    rw [hshape1]; exact insertionSort_strict_of_nodup _ hnd1
  have hstrict2 : ms2.Pairwise fun a b => a.version < b.version := by
    rw [hshape2]; exact insertionSort_strict_of_nodup _ hnd2
  have hmsperm : ms1.Perm ms2 := by
    rw [hshape1, hshape2]
    exact ((List.perm_insertionSort migLE _).trans hfmperm).trans
      (List.perm_insertionSort migLE _).symm
  have heq : ms1 = ms2 := sorted_versions_nodup_eq ms1 ms2 hmsperm hstrict1 hstrict2
  refine ⟨heq, by rw [heq], ?_⟩
  have hfiltered : (runMigrationsSequence ms1 applied).Pairwise
      fun a b => a.version < b.version := hstrict1.filter _
  exact List.pairwise_map.mpr hfiltered

/-- Witness for C4: the two sample discovery orders of the same files load
the same sorted migration list, and the pending sequence from an empty
ledger is strictly ascending. -/
theorem c4_migration_order_independent_witness :
    loadMigrations sampleEntriesA = Except.ok sampleLoaded ∧
      loadMigrations sampleEntriesB = Except.ok sampleLoaded ∧
      ((runMigrationsSequence sampleLoaded []).map fun m => m.version).Pairwise (· < ·) := by
  have h := c4_migration_order_independent sampleEntriesA sampleEntriesB []
    sampleLoaded sampleLoaded (by decide) rfl rfl
  exact ⟨rfl, rfl, h.2.2⟩

theorem matchLayout_nil (layout : DateLayout) : matchLayout layout [] = none := by
  cases layout <;> rfl

theorem firstMatch_isSome_iff (L : List DateLayout) (cs : List Char) :
    (firstMatch L cs).isSome = true ↔ ∃ l ∈ L, (matchLayout l cs).isSome = true := by
  induction L with
  | nil => simp [firstMatch]
  | cons l ls ih =>
    cases hm : matchLayout l cs with
    | some d =>
      simp only [firstMatch, hm]
      constructor
      · intro _
        exact ⟨l, List.mem_cons_self l ls, by simp [hm]⟩
      · intro _
        rfl
    | none =>
      simp only [firstMatch, hm]
      rw [ih]
      constructor
      · rintro ⟨l1, hl1, h⟩
        exact ⟨l1, List.mem_cons_of_mem _ hl1, h⟩
      · rintro ⟨l1, hl1, h⟩
        rcases List.mem_cons.mp hl1 with rfl | hl1
        · rw [hm] at h
          simp at h
        · exact ⟨l1, hl1, h⟩

theorem firstMatch_eq_none_iff (L : List DateLayout) (cs : List Char) :
    firstMatch L cs = none ↔ ∀ l ∈ L, matchLayout l cs = none := by
  induction L with
  | nil => simp [firstMatch]
  | cons l ls ih =>
    cases hm : matchLayout l cs with
    | some d =>
      simp only [firstMatch, hm]
      constructor
      · intro h
        exact absurd h (by simp)
      · intro h
        exact absurd (h l (List.mem_cons_self l ls)) (by simp [hm])
    | none =>
      simp only [firstMatch, hm]
      rw [ih]
      constructor
      · intro h l1 hl1
        rcases List.mem_cons.mp hl1 with rfl | hl1
        · exact hm
        · exact h l1 hl1
      · intro h l1 hl1
        exact h l1 (List.mem_cons_of_mem _ hl1)

/-- C7: reading a stored date text succeeds with a date whenever the text
matches any of the six known layouts, and fails exactly when the (trimmed)
text is non-empty and matches none of them; concretely, a task stored with
a due date of 2025-02-05 under any of the accepted encodings is re-fetched
with due date 2025-02-05. -/
theorem c7_date_parse_tolerant (s : String) :
    ((∃ l ∈ sqliteDateLayouts, (matchLayout l (trimSpace s)).isSome = true) →
      ∃ d, parseSQLiteDate s = Except.ok (some d)) ∧
    ((∃ msg, parseSQLiteDate s = Except.error msg) ↔
      (trimSpace s ≠ [] ∧ ∀ l ∈ sqliteDateLayouts, matchLayout l (trimSpace s) = none)) ∧
    (∀ enc ∈ (["2025-02-05", "2025-02-05T00:00:00Z", "2025-02-05 00:00:00",
        "2025-02-05 00:00:00-07:00", "2025-02-05 12:30:45.5+02:00",
        "2025-02-05T08:15:00.999999999-07:00"] : List String),
      (GetTask [{ sampleTaskOwned with due_date := some enc }] 1).map
        (fun t => t.due_date) = Except.ok (some ⟨2025, 2, 5⟩)) := by
  refine ⟨?_, ⟨?_, ?_⟩, ?_⟩
  · rintro ⟨l, hl, hsome⟩
    have hne : ¬ trimSpace s = [] := by
      intro hnil
      rw [hnil, matchLayout_nil] at hsome
      simp at hsome
    have hfm : (firstMatch sqliteDateLayouts (trimSpace s)).isSome = true :=
      (firstMatch_isSome_iff _ _).mpr ⟨l, hl, hsome⟩
    obtain ⟨d, hd⟩ := Option.isSome_iff_exists.mp hfm
    refine ⟨d, ?_⟩
    unfold parseSQLiteDate
    rw [if_neg hne, hd]
  · rintro ⟨msg, hmsg⟩
    by_cases hnil : trimSpace s = []
    · unfold parseSQLiteDate at hmsg
      rw [if_pos hnil] at hmsg
      exact absurd hmsg (by simp)
    · refine ⟨hnil, (firstMatch_eq_none_iff _ _).mp ?_⟩
      unfold parseSQLiteDate at hmsg
      rw [if_neg hnil] at hmsg
      cases hfm : firstMatch sqliteDateLayouts (trimSpace s) with
      | some d =>
        rw [hfm] at hmsg
        exact absurd hmsg (by simp)
      | none => rfl
  · rintro ⟨hne, hall⟩
    have hfm := (firstMatch_eq_none_iff _ _).mpr hall
    refine ⟨"invalid date format", ?_⟩
    unfold parseSQLiteDate
    rw [if_neg hne, hfm]
  · intro enc henc
    fin_cases henc <;> rfl

/-- Witness for C7 at the plain-date encoding. -/
theorem c7_date_parse_tolerant_witness :
    ∃ d, parseSQLiteDate "2025-02-05" = Except.ok (some d) :=
  (c7_date_parse_tolerant "2025-02-05").1 ⟨DateLayout.dateOnly, by decide, by decide⟩

/-- Counterexample for C8: id 9 matches a stored row, yet GetProject fails
(with a storage error), because the row's stored `target_date` text parses
under no known layout — so "for every id that matches a row, get succeeds"
is false. -/
theorem c8_counterexample :
    (∃ r, List.find? (fun x => x.id == (9 : Int)) [sampleProjectBadDate] = some r) ∧
      (∀ p, GetProject [sampleProjectBadDate] 9 ≠ Except.ok p) ∧
      GetProject [sampleProjectBadDate] 9 =
        Except.error (StoreError.storage "failed to parse project target date") := by
  refine ⟨⟨sampleProjectBadDate, rfl⟩, ?_, rfl⟩
  intro p hp
  have hval : GetProject [sampleProjectBadDate] 9 =
      Except.error (StoreError.storage "failed to parse project target date") := rfl
  rw [hval] at hp
  exact Except.noConfusion hp

/-- C8 (amended): get-by-id raises the dedicated not-found condition exactly
when no row matches the id — never a storage error for a missing row, and
never a not-found error for a matching row; for a matching row the get
succeeds with the row's data provided its stored date texts parse (and
otherwise fails with a storage error, not a not-found one). -/
theorem c8_get_not_found (pdb : List ProjectRow) (tdb : List TaskRow) (id : Int) :
    ((∀ r ∈ pdb, r.id ≠ id) →
      GetProject pdb id = Except.error (StoreError.notFound "project not found")) ∧
    (∀ r, pdb.find? (fun x => x.id == id) = some r →
      (∀ msg, GetProject pdb id ≠ Except.error (StoreError.notFound msg)) ∧
      (∀ td ca, parseStoredDate r.target_date = Except.ok td →
        parseStoredDate r.completed_at = Except.ok ca →
        GetProject pdb id =
          Except.ok ⟨r.id, r.name, r.description, r.type, td, r.completed, ca,
            r.sort_order, r.created_at, r.updated_at⟩)) ∧
    ((∀ r ∈ tdb, r.id ≠ id) →
      GetTask tdb id = Except.error (StoreError.notFound "task not found")) ∧
    (∀ r, tdb.find? (fun x => x.id == id) = some r →
      (∀ msg, GetTask tdb id ≠ Except.error (StoreError.notFound msg)) ∧
      (∀ dd ca, parseStoredDate r.due_date = Except.ok dd →
        parseStoredDate r.completed_at = Except.ok ca →
        GetTask tdb id =
          Except.ok ⟨r.id, r.project_id, r.description, r.notes, r.priority, dd,
            r.completed, ca, r.sort_order, r.created_at, r.updated_at⟩)) := by
  refine ⟨?_, ?_, ?_, ?_⟩
  · intro hmiss
    have hfind : pdb.find? (fun x => x.id == id) = none := by
      rw [List.find?_eq_none]
      intro x hx
      simp only [beq_iff_eq]
      exact hmiss x hx
    simp only [GetProject, hfind]
  · intro r hfind
    constructor
    · intro msg hcontra
      simp only [GetProject, hfind] at hcontra
      cases h1 : parseStoredDate r.target_date with
      | error e =>
        rw [h1] at hcontra
        simp at hcontra
      | ok td =>
        rw [h1] at hcontra
        cases h2 : parseStoredDate r.completed_at with
        | error e =>
          rw [h2] at hcontra
          simp at hcontra
        | ok ca =>
          rw [h2] at hcontra
          simp at hcontra
    · intro td ca h1 h2
      simp only [GetProject, hfind, h1, h2]
  · intro hmiss
    have hfind : tdb.find? (fun x => x.id == id) = none := by
      rw [List.find?_eq_none]
      intro x hx
      simp only [beq_iff_eq]
      exact hmiss x hx
    simp only [GetTask, hfind]
  · intro r hfind
    constructor
    · intro msg hcontra
      simp only [GetTask, hfind] at hcontra
      cases h1 : parseStoredDate r.due_date with
      | error e =>
        rw [h1] at hcontra
        simp at hcontra
      | ok dd =>
        rw [h1] at hcontra
        cases h2 : parseStoredDate r.completed_at with
        | error e =>
          rw [h2] at hcontra
          simp at hcontra
        | ok ca =>
          rw [h2] at hcontra
          simp at hcontra
    · intro dd ca h1 h2
      simp only [GetTask, hfind, h1, h2]

/-- Witness for C8's amended theorem: a get on an empty table yields the
not-found error, and a get on a stored completed task succeeds with its
parsed dates. -/
theorem c8_get_not_found_witness :
    GetProject [] 5 = Except.error (StoreError.notFound "project not found") ∧
      GetTask [sampleTaskDone] 3 =
        Except.ok ⟨3, 1, "ship release", "", "medium", none, true, some ⟨2025, 1, 1⟩, 2,
          "t0", "t0"⟩ := by
  refine ⟨(c8_get_not_found [] [] 5).1 (by simp), ?_⟩
  have h := ((c8_get_not_found [] [sampleTaskDone] 3).2.2.2 sampleTaskDone rfl).2
    none (some ⟨2025, 1, 1⟩) rfl rfl
  exact h

end MyTasks
